import Mathlib

/-
Verification development for the easyply rule-expansion core.

The glue layer is translated from src/easyply/__init__.py.  The rule/term
data model (easyply/nodes.py) and the rule-text parser (easyply/parser.py)
are not present in the source tree; they are modelled from the
specification (sections 3, 4.1-4.4), as marked on each definition.
Python lists of terms are embedded as Lean lists; the contents of an
OptionalGroup use the isomorphic sequence type NodeSeq so that all
recursions are structural and every definition evaluates by reduction.
Python set-based deduplication is modelled with List.dedup (Python set
iteration order is unspecified; List.dedup fixes one order, which no claim
depends on).  Python exceptions are modelled with Except.
-/

instance {ε α : Type} [DecidableEq ε] [DecidableEq α] : DecidableEq (Except ε α) := fun a b =>
  match a, b with
  | .ok x, .ok y => decidable_of_iff (x = y) (by simp)
  | .error e, .error f => decidable_of_iff (e = f) (by simp)
  | .ok _, .error _ => isFalse (by simp)
  | .error _, .ok _ => isFalse (by simp)

namespace easyply

namespace nodes

mutual

/-- Modelled from the spec: the term model of easyply/nodes.py (missing from
src/).  `Term` is a reference to one grammar symbol, `NamedTerm` additionally
carries a parameter name, `OptionalGroup` is a contiguous sub-sequence of
terms that may be present or absent as a unit and may nest arbitrarily. -/
inductive Node where
  | Term (symbol : String)
  | NamedTerm (name symbol : String)
  | OptionalGroup (terms : NodeSeq)
  deriving DecidableEq

/-- Modelled from the spec: an ordered sequence of terms (a Python list in
nodes.py, missing from src/), given as a first-class inductive so that the
tree of nodes is one mutual inductive family. -/
inductive NodeSeq where
  | nil
  | cons (head : Node) (tail : NodeSeq)
  deriving DecidableEq

end

/-- View a NodeSeq as a Lean list. -/
def NodeSeq.toList : NodeSeq → List Node
  | .nil => []
  | .cons t rest => t :: rest.toList

/-- Build a NodeSeq from a Lean list. -/
def NodeSeq.ofList : List Node → NodeSeq
  | [] => .nil
  | t :: rest => .cons t (NodeSeq.ofList rest)

/-- Modelled from the spec: a Rule of easyply/nodes.py (missing from src/):
a left-hand-side production name and an ordered sequence of terms, some of
which may be optional groups. -/
structure Rule where
  lhs : String
  terms : List Node
  deriving DecidableEq

/-- Whether a node is an OptionalGroup. -/
def Node.isGroup : Node → Bool
  | .OptionalGroup _ => true
  | _ => false

mutual

/-- Modelled from the spec (section 4.3): flattening one node — an atom
stays, a group is replaced in place by the concatenation of its flattened
contents. -/
def flattenNode : Node → List Node
  | .Term s => [.Term s]
  | .NamedTerm n s => [.NamedTerm n s]
  | .OptionalGroup ts => flattenNodeSeq ts

/-- Modelled from the spec (section 4.3): flattening a node sequence. -/
def flattenNodeSeq : NodeSeq → List Node
  | .nil => []
  | .cons t rest => flattenNode t ++ flattenNodeSeq rest

end

/-- Modelled from the spec (section 4.3): flattening a term list, preserving
relative order. -/
def flattenSeq (ts : List Node) : List Node :=
  ts.flatMap flattenNode

/-- Modelled from the spec (section 4.3): `Rule.flatten` produces a new Rule
whose terms form a single linear sequence of Term | NamedTerm. -/
def Rule.flatten (r : Rule) : Rule :=
  ⟨r.lhs, flattenSeq r.terms⟩

mutual

/-- Modelled from the spec (section 4.2): the set of resolved sub-sequences
one node can contribute — an atom contributes itself; an OptionalGroup is a
binary choice: excluded (nothing spliced in) first, then each resolution of
its inner sequence. -/
def nodeChoices : Node → List (List Node)
  | .Term s => [[.Term s]]
  | .NamedTerm n s => [[.NamedTerm n s]]
  | .OptionalGroup ts => [] :: seqChoices ts

/-- Modelled from the spec (section 4.2): every resolution of a node
sequence, the cartesian combination of the choices of its nodes. -/
def seqChoices : NodeSeq → List (List Node)
  | .nil => [[]]
  | .cons t rest =>
      (nodeChoices t).flatMap (fun c => (seqChoices rest).map (fun r => c ++ r))

end

/-- Modelled from the spec (section 4.2): every resolution of a term list. -/
def expandSeq : List Node → List (List Node)
  | [] => [[]]
  | t :: rest =>
      (nodeChoices t).flatMap (fun c => (expandSeq rest).map (fun r => c ++ r))

/-- Modelled from the spec (section 4.2): `Rule.expand_optionals` enumerates
every combination of optional-group inclusion/exclusion. -/
def Rule.expand_optionals (r : Rule) : List Rule :=
  (expandSeq r.terms).map (fun ts => ⟨r.lhs, ts⟩)

mutual

/-- Modelled from the spec (section 4.4): rendering one node.  In pure-ply
mode only the grammar symbol is emitted; otherwise a NamedTerm retains its
naming annotation `name=symbol` (the notation of section 4.1). -/
def fmtNode (pure_ply : Bool) : Node → String
  | .Term s => s
  | .NamedTerm n s => if pure_ply then s else n ++ "=" ++ s
  | .OptionalGroup ts => "(" ++ fmtNodeSeq pure_ply ts ++ ")?"

/-- Modelled from the spec (section 4.4): rendering a node sequence,
space-separated. -/
def fmtNodeSeq (pure_ply : Bool) : NodeSeq → String
  | .nil => ""
  | .cons t .nil => fmtNode pure_ply t
  | .cons t rest => fmtNode pure_ply t ++ " " ++ fmtNodeSeq pure_ply rest

end

/-- Modelled from the spec (section 4.4): rendering a term list,
space-separated. -/
def fmtTerms (pure_ply : Bool) : List Node → String
  | [] => ""
  | [t] => fmtNode pure_ply t
  | t :: rest => fmtNode pure_ply t ++ " " ++ fmtTerms pure_ply rest

/-- Modelled from the spec (section 4.4): `Rule.format` renders a rule as a
backend-compatible production line of the shape `lhs : symbol1 symbol2`. -/
def Rule.format (r : Rule) (pure_ply : Bool) : String :=
  r.lhs ++ " : " ++ fmtTerms pure_ply r.terms

mutual

/-- Whether an atom occurs anywhere in a node, descending into groups. -/
def occursNode (a : Node) : Node → Bool
  | .Term s => decide (Node.Term s = a)
  | .NamedTerm n s => decide (Node.NamedTerm n s = a)
  | .OptionalGroup ts => occursNodeSeq a ts

/-- Whether an atom occurs anywhere in a node sequence. -/
def occursNodeSeq (a : Node) : NodeSeq → Bool
  | .nil => false
  | .cons t rest => occursNode a t || occursNodeSeq a rest

end

/-- Whether an atom occurs anywhere in a term list, descending into groups. -/
def occursIn (a : Node) (ts : List Node) : Bool :=
  ts.any (occursNode a)

/-- A term list is flat: it contains no OptionalGroup. -/
def groupFree (ts : List Node) : Bool :=
  ts.all (fun t => !t.isGroup)

/-- A node sequence is flat: it contains no OptionalGroup. -/
def seqGroupFree : NodeSeq → Bool
  | .nil => true
  | .cons t rest => !t.isGroup && seqGroupFree rest

/-- All groups of a term list are top-level and have flat contents. -/
def topLevelSimple (ts : List Node) : Bool :=
  ts.all (fun t =>
    match t with
    | .OptionalGroup inner => seqGroupFree inner
    | _ => true)

/-- Number of top-level OptionalGroups of a term list. -/
def countGroups (ts : List Node) : Nat :=
  ts.countP (fun t => t.isGroup)

end nodes

/-- An element of a ruleset argument: easyply functions accept Rule objects
and strings interchangeably (module docstring of src/easyply/__init__.py). -/
inductive RuleInput where
  | rule (r : nodes.Rule)
  | str (s : String)
  deriving DecidableEq

/-- A ruleset argument: either a single non-list value or a list of
elements, mirroring the `isinstance(ruleset, (list, tuple))` test of
src/easyply/__init__.py. -/
inductive RulesetInput where
  | single (i : RuleInput)
  | many (l : List RuleInput)
  deriving DecidableEq

/-- The exceptions of easyply: parse errors (carrying the offending input
text), SingleRuleExpectedError (carrying the offending ruleset argument, as
in src/easyply/__init__.py) and NoDocstringError. -/
inductive Err where
  | parseErr (msg : String) (offending : String)
  | singleRuleExpected (input : RulesetInput)
  | noDocstring (msg : String)
  deriving DecidableEq

namespace parser

/-- Modelled from the spec (section 4.1): token alphabet of the rule
notation. -/
inductive Tok where
  | lparen
  | rparen
  | question
  | eq
  | ident (s : String)
  deriving DecidableEq

/-- Emit a pending identifier (accumulated in reverse) before other tokens. -/
def flushAcc (acc : List Char) (ts : List Tok) : List Tok :=
  if acc.isEmpty then ts else .ident (String.mk acc.reverse) :: ts

/-- Modelled from the spec (section 4.1): the tokenizer, with the pending
identifier characters accumulated in reverse in the second argument. -/
def tokenizeAux : List Char → List Char → List Tok
  | [], acc => flushAcc acc []
  | c :: rest, acc =>
      if c = '(' then flushAcc acc (.lparen :: tokenizeAux rest [])
      else if c = ')' then flushAcc acc (.rparen :: tokenizeAux rest [])
      else if c = '?' then flushAcc acc (.question :: tokenizeAux rest [])
      else if c = '=' then flushAcc acc (.eq :: tokenizeAux rest [])
      else if c.isWhitespace then flushAcc acc (tokenizeAux rest [])
      else tokenizeAux rest (c :: acc)

/-- Modelled from the spec (section 4.1): the tokenizer. -/
def tokenize (cs : List Char) : List Tok :=
  tokenizeAux cs []

/-- Modelled from the spec (section 7): depth scan of the parenthesis
nesting of a token stream; the result is the final depth, and none marks a
closing paren with no matching opening one. -/
def parenScan : List Tok → Nat → Option Nat
  | [], d => some d
  | .lparen :: rest, d => parenScan rest (d + 1)
  | .rparen :: rest, d + 1 => parenScan rest d
  | .rparen :: _, 0 => none
  | .question :: rest, d => parenScan rest d
  | .eq :: rest, d => parenScan rest d
  | .ident _ :: rest, d => parenScan rest d

/-- Modelled from the spec (section 7): balanced group nesting — the paren
scan never hits an unmatched closing paren and ends at depth zero, so in
particular no opening paren is left unmatched. -/
def balanced (toks : List Tok) : Bool :=
  decide (parenScan toks 0 = some 0)

/-- Modelled from the spec (section 4.1): an unterminated optional marker —
some closing paren is not immediately followed by the question mark. -/
def hasUnterminated : List Tok → Bool
  | [] => false
  | .rparen :: .question :: rest => hasUnterminated rest
  | .rparen :: [] => true
  | .rparen :: .lparen :: _ => true
  | .rparen :: .rparen :: _ => true
  | .rparen :: .eq :: _ => true
  | .rparen :: .ident _ :: _ => true
  | .lparen :: rest => hasUnterminated rest
  | .question :: rest => hasUnterminated rest
  | .eq :: rest => hasUnterminated rest
  | .ident _ :: rest => hasUnterminated rest

/-- Lower-case a name, character by character. -/
def lowerName (s : String) : String :=
  String.mk (s.data.map Char.toLower)

/-- Modelled from the spec (section 4.1): recursive-descent parse of a term
sequence, stopping at a closing paren or at the end of input.  An
OptionalGroup must be `( term_seq ) ?`: a group whose closing paren is
missing is malformed nesting, a group not followed by `?` is an
unterminated optional marker.  A bare symbol becomes a NamedTerm whose name
is the lower-cased symbol; `name = symbol` binds the name explicitly.  The
Nat argument is recursion fuel, always sufficient when it exceeds the token
count. -/
def parseSeq : Nat → List Tok → Except String (List nodes.Node × List Tok)
  | 0, _ => .error "internal: fuel exhausted"
  | _ + 1, [] => .ok ([], [])
  | _ + 1, .rparen :: rest => .ok ([], .rparen :: rest)
  | fuel + 1, .lparen :: rest =>
      match parseSeq fuel rest with
      | .error e => .error e
      | .ok (inner, rest1) =>
          match rest1 with
          | .rparen :: .question :: rest2 =>
              match parseSeq fuel rest2 with
              | .error e => .error e
              | .ok (tail, rest3) =>
                  .ok (.OptionalGroup (nodes.NodeSeq.ofList inner) :: tail, rest3)
          | .rparen :: _ => .error "unterminated optional marker"
          | _ => .error "malformed group nesting: unmatched opening paren"
  | fuel + 1, .ident n :: .eq :: .ident s :: rest =>
      match parseSeq fuel rest with
      | .error e => .error e
      | .ok (tail, rest1) => .ok (.NamedTerm n s :: tail, rest1)
  | fuel + 1, .ident s :: rest =>
      match parseSeq fuel rest with
      | .error e => .error e
      | .ok (tail, rest1) => .ok (.NamedTerm (lowerName s) s :: tail, rest1)
  | _ + 1, .question :: _ => .error "unexpected optional marker"
  | _ + 1, .eq :: _ => .error "unexpected name separator"

/-- Split a character list at the first colon. -/
def splitColon : List Char → Option (List Char × List Char)
  | [] => none
  | c :: rest =>
      if c = ':' then some ([], rest)
      else (splitColon rest).map (fun pr => (c :: pr.1, pr.2))

/-- Drop surrounding whitespace. -/
def trimChars (cs : List Char) : List Char :=
  ((cs.dropWhile Char.isWhitespace).reverse.dropWhile Char.isWhitespace).reverse

/-- Split a character list into newline-separated chunks. -/
def splitNl : List Char → List (List Char)
  | [] => [[]]
  | c :: rest =>
      if c = '\n' then [] :: splitNl rest
      else match splitNl rest with
           | [] => [[c]]
           | l :: ls => (c :: l) :: ls

/-- Modelled from the spec (sections 4.1 and 7): parse one rule definition
`lhs ":" term_seq`.  A missing separator, an empty lhs, malformed group
nesting and unterminated optional markers are parse errors identifying the
offending input; nothing is returned on error. -/
def parseRule (line : List Char) : Except Err nodes.Rule :=
  match splitColon line with
  | none => .error (.parseErr "missing lhs separator" (String.mk line))
  | some (lhsPart, rhsPart) =>
      let lhs := String.mk (trimChars lhsPart)
      if lhs = "" then .error (.parseErr "empty lhs" (String.mk line))
      else
        let toks := tokenize rhsPart
        match parseSeq (toks.length + 1) toks with
        | .error msg => .error (.parseErr msg (String.mk line))
        | .ok (terms, []) => .ok ⟨lhs, terms⟩
        | .ok (_, _ :: _) =>
            .error (.parseErr "malformed group nesting: unmatched closing paren" (String.mk line))

/-- Modelled from the spec (section 4.1): `parser.parse` converts one or
more newline-separated rule definitions into a list of Rules, preserving
input order; blank lines are ignored; the whole call fails on the first
malformed definition. -/
def parse (text : String) : Except Err (List nodes.Rule) :=
  (((splitNl text.toList).map trimChars).filter (fun l => l ≠ [])).mapM parseRule

end parser

open nodes

/-- From src/easyply/__init__.py (`coerce_to_rule`, local to
`_coerce_to_ruleset`): a string element is replaced by the list of Rules the
parser produces for it, any other element is passed through as a singleton. -/
def coerce_to_rule : RuleInput → Except Err (List Rule)
  | .rule r => .ok [r]
  | .str s => parser.parse s

/-- From src/easyply/__init__.py: the `chain.from_iterable` over
`coerce_to_rule` — order-preserving concatenation of the per-element
results, failing at the first element whose parse fails. -/
def coerce_all : List RuleInput → Except Err (List Rule)
  | [] => .ok []
  | i :: rest =>
      match coerce_to_rule i with
      | .error e => .error e
      | .ok rs =>
          match coerce_all rest with
          | .error e => .error e
          | .ok rest2 => .ok (rs ++ rest2)

/-- From src/easyply/__init__.py (`_coerce_to_ruleset`): a non-list input is
first wrapped as a singleton tuple, then every element is coerced and the
results are chained. -/
def _coerce_to_ruleset (ruleset : RulesetInput) : Except Err (List Rule) :=
  match ruleset with
  | .single i => coerce_all [i]
  | .many l => coerce_all l

/-- From src/easyply/__init__.py (`_coerce_to_single_rule`): coerce to a
ruleset and raise SingleRuleExpectedError, carrying the offending input,
unless it has exactly one Rule. -/
def _coerce_to_single_rule (rule : RulesetInput) : Except Err Rule :=
  match _coerce_to_ruleset rule with
  | .error e => .error e
  | .ok [r] => .ok r
  | .ok _ => .error (.singleRuleExpected rule)

/-- From src/easyply/__init__.py (`process_rule`, local to
`expand_optionals`, with format=True): expand one rule, flatten and format
each variant, and take the set of results (modelled as List.dedup). -/
def process_rule_fmt (pure_ply : Bool) (rule : Rule) : List String :=
  ((rule.expand_optionals).map (fun r => (r.flatten).format pure_ply)).dedup

/-- From src/easyply/__init__.py (`process_rule` with format=False): expand
one rule, flatten each variant, and take the set of results. -/
def process_rule_raw (rule : Rule) : List Rule :=
  ((rule.expand_optionals).map Rule.flatten).dedup

/-- From src/easyply/__init__.py (`expand_optionals` with format=True):
coerce the ruleset and chain the per-rule expansion results. -/
def expand_optionals_fmt (ruleset : RulesetInput) (pure_ply : Bool) :
    Except Err (List String) :=
  match _coerce_to_ruleset ruleset with
  | .error e => .error e
  | .ok rs => .ok ((rs.map (process_rule_fmt pure_ply)).flatten)

/-- From src/easyply/__init__.py (`expand_optionals` with format=False):
coerce the ruleset and chain the per-rule flattened-Rule results. -/
def expand_optionals_raw (ruleset : RulesetInput) : Except Err (List Rule) :=
  match _coerce_to_ruleset ruleset with
  | .error e => .error e
  | .ok rs => .ok ((rs.map process_rule_raw).flatten)

/-- From src/easyply/__init__.py (the loop of `wrapper`): walking the
flattened rule's terms with index i, each NamedTerm contributes the keyword
argument (term.name, p[i + 1]); the parse stack p is modelled as a total
map from slot index to value. -/
def extract_kwargs {V : Type} (p : Nat → V) : List Node → Nat → List (String × V)
  | [], _ => []
  | .NamedTerm name _ :: rest, i => (name, p (i + 1)) :: extract_kwargs p rest (i + 1)
  | _ :: rest, i => extract_kwargs p rest (i + 1)

/-- From src/easyply/__init__.py (`wrapper`): the generated function reads
the parse stack, calls func on the extracted keyword arguments and assigns
the result to slot 0, leaving every other slot unchanged. -/
def wrapper {V : Type} (rule : Rule) (func : List (String × V) → V) (p : Nat → V) : Nat → V :=
  fun j => if j = 0 then func (extract_kwargs p (rule.flatten).terms 0) else p j

/-- From src/easyply/__init__.py (`create_wrapper`): coerce to a single
rule, flatten it, and return the wrapped function together with its
PLY-compatible docstring (the flattened rule formatted with pure_ply=True). -/
def create_wrapper {V : Type} (rule : RulesetInput) (func : List (String × V) → V) :
    Except Err (String × ((Nat → V) → Nat → V)) :=
  match _coerce_to_single_rule rule with
  | .error e => .error e
  | .ok r => .ok ((r.flatten).format true, wrapper r func)

/-- From src/easyply/__init__.py (`parse`): the NoDocstringError message,
naming the function when fname is given. -/
def noDocstringMsg : Option String → String
  | some f => "Function " ++ f ++ " has no docstring"
  | none => "Provided function has no docstring"

/-- Python str.strip: drop surrounding whitespace. -/
def strip (s : String) : String :=
  String.mk (parser.trimChars s.toList)

/-- From src/easyply/__init__.py (`parse`): a falsy docstring (missing, or
the empty string) raises NoDocstringError before any parsing; otherwise the
definition is stripped and handed to parser.parse. -/
def parse (defn : Option String) (fname : Option String) : Except Err (List Rule) :=
  match defn with
  | none => .error (.noDocstring (noDocstringMsg fname))
  | some d =>
      if d = "" then .error (.noDocstring (noDocstringMsg fname))
      else parser.parse (strip d)

namespace nodes

theorem nodeChoices_atom (t : Node) (h : t.isGroup = false) : nodeChoices t = [[t]] := by
  cases t with
  | Term s => rfl
  | NamedTerm n s => rfl
  | OptionalGroup ts => simp [Node.isGroup] at h

theorem flattenNode_atom (t : Node) (h : t.isGroup = false) : flattenNode t = [t] := by
  cases t with
  | Term s => rfl
  | NamedTerm n s => rfl
  | OptionalGroup ts => simp [Node.isGroup] at h

theorem expandSeq_groupFree : ∀ ts : List Node, groupFree ts = true → expandSeq ts = [ts] := by
  intro ts
  induction ts with
  | nil => intro h; rfl
  | cons t rest ih =>
      intro h
      simp only [groupFree, List.all_cons, Bool.and_eq_true, Bool.not_eq_true'] at h
      rw [expandSeq, nodeChoices_atom t h.1, ih h.2]
      simp

theorem flattenSeq_groupFree : ∀ ts : List Node, groupFree ts = true → flattenSeq ts = ts := by
  intro ts
  induction ts with
  | nil => intro h; rfl
  | cons t rest ih =>
      intro h
      simp only [groupFree, List.all_cons, Bool.and_eq_true, Bool.not_eq_true'] at h
      simp only [flattenSeq, List.flatMap_cons] at ih ⊢
      rw [flattenNode_atom t h.1, ih h.2]
      rfl

theorem seqChoices_groupFree : ∀ s : NodeSeq, seqGroupFree s = true →
    seqChoices s = [s.toList]
  | .nil, _ => rfl
  | .cons t rest, h => by
      simp only [seqGroupFree, Bool.and_eq_true, Bool.not_eq_true'] at h
      rw [seqChoices, nodeChoices_atom t h.1, seqChoices_groupFree rest h.2]
      simp [NodeSeq.toList]

theorem expandSeq_length : ∀ ts : List Node, topLevelSimple ts = true →
    (expandSeq ts).length = 2 ^ countGroups ts := by
  intro ts
  induction ts with
  | nil => intro h; rfl
  | cons t rest ih =>
      intro h
      simp only [topLevelSimple, List.all_cons, Bool.and_eq_true] at h
      have hrest := ih h.2
      cases t with
      | Term s =>
          have hc : countGroups (Node.Term s :: rest) = countGroups rest := by
            simp [countGroups, List.countP_cons, Node.isGroup]
          rw [hc, ← hrest]
          simp [expandSeq, nodeChoices]
      | NamedTerm n s =>
          have hc : countGroups (Node.NamedTerm n s :: rest) = countGroups rest := by
            simp [countGroups, List.countP_cons, Node.isGroup]
          rw [hc, ← hrest]
          simp [expandSeq, nodeChoices]
      | OptionalGroup inner =>
          have hin : seqGroupFree inner = true := h.1
          have hc : countGroups (Node.OptionalGroup inner :: rest) = countGroups rest + 1 := by
            simp [countGroups, List.countP_cons, Node.isGroup]
          rw [hc, pow_succ, ← hrest]
          rw [expandSeq, nodeChoices, seqChoices_groupFree inner hin]
          simp only [List.flatMap_cons, List.flatMap_nil, List.length_append,
                     List.length_map, List.append_nil]
          omega

theorem flatten_occurs_aux : ∀ n : Nat,
    (∀ t : Node, sizeOf t ≤ n → ∀ a : Node, a.isGroup = false →
        (a ∈ flattenNode t ↔ occursNode a t = true))
  ∧ (∀ s : NodeSeq, sizeOf s ≤ n → ∀ a : Node, a.isGroup = false →
        (a ∈ flattenNodeSeq s ↔ occursNodeSeq a s = true)) := by
  intro n
  induction n with
  | zero =>
      constructor
      · intro t ht
        exfalso
        cases t <;> simp at ht
      · intro s hs
        exfalso
        cases s <;> simp at hs
  | succ n ih =>
      constructor
      · intro t ht a ha
        cases t with
        | Term s => simp [flattenNode, occursNode, eq_comm]
        | NamedTerm nm s => simp [flattenNode, occursNode, eq_comm]
        | OptionalGroup ts =>
            have hsz : sizeOf ts ≤ n := by simp at ht; omega
            simpa [flattenNode, occursNode] using ih.2 ts hsz a ha
      · intro s hs a ha
        cases s with
        | nil => simp [flattenNodeSeq, occursNodeSeq]
        | cons t rest =>
            have h1 : sizeOf t ≤ n := by simp at hs; omega
            have h2 : sizeOf rest ≤ n := by simp at hs; omega
            simp [flattenNodeSeq, occursNodeSeq, List.mem_append,
                  ih.1 t h1 a ha, ih.2 rest h2 a ha]

theorem mem_flattenSeq_iff_occursIn (a : Node) (ha : a.isGroup = false) :
    ∀ ts : List Node, (a ∈ flattenSeq ts ↔ occursIn a ts = true) := by
  intro ts
  induction ts with
  | nil => simp [flattenSeq, occursIn]
  | cons t rest ih =>
      simp only [flattenSeq, List.flatMap_cons, List.mem_append, occursIn, List.any_cons,
                 Bool.or_eq_true] at ih ⊢
      rw [ih, (flatten_occurs_aux (sizeOf t)).1 t (Nat.le_refl _) a ha]

theorem flatten_groupFree_aux : ∀ n : Nat,
    (∀ t : Node, sizeOf t ≤ n → ∀ b ∈ flattenNode t, b.isGroup = false)
  ∧ (∀ s : NodeSeq, sizeOf s ≤ n → ∀ b ∈ flattenNodeSeq s, b.isGroup = false) := by
  intro n
  induction n with
  | zero =>
      constructor
      · intro t ht
        exfalso
        cases t <;> simp at ht
      · intro s hs
        exfalso
        cases s <;> simp at hs
  | succ n ih =>
      constructor
      · intro t ht b hb
        cases t with
        | Term s =>
            simp [flattenNode] at hb
            subst hb
            rfl
        | NamedTerm nm s =>
            simp [flattenNode] at hb
            subst hb
            rfl
        | OptionalGroup ts =>
            have hsz : sizeOf ts ≤ n := by simp at ht; omega
            exact ih.2 ts hsz b (by simpa [flattenNode] using hb)
      · intro s hs b hb
        cases s with
        | nil => simp [flattenNodeSeq] at hb
        | cons t rest =>
            have h1 : sizeOf t ≤ n := by simp at hs; omega
            have h2 : sizeOf rest ≤ n := by simp at hs; omega
            simp only [flattenNodeSeq, List.mem_append] at hb
            rcases hb with hb | hb
            · exact ih.1 t h1 b hb
            · exact ih.2 rest h2 b hb

theorem groupFree_flattenSeq (ts : List Node) : groupFree (flattenSeq ts) = true := by
  simp only [groupFree, List.all_eq_true, Bool.not_eq_true']
  intro b hb
  simp only [flattenSeq, List.mem_flatMap] at hb
  obtain ⟨t, _, hbt⟩ := hb
  exact (flatten_groupFree_aux (sizeOf t)).1 t (Nat.le_refl _) b hbt

end nodes

theorem extract_kwargs_mem {V : Type} (p : Nat → V) :
    ∀ (ts : List Node) (i0 i : Nat) (name sym : String),
      ts[i]? = some (Node.NamedTerm name sym) →
      (name, p (i0 + i + 1)) ∈ extract_kwargs p ts i0 := by
  intro ts
  induction ts with
  | nil => intro i0 i name sym h; simp at h
  | cons t rest ih =>
      intro i0 i name sym h
      cases i with
      | zero =>
          simp only [List.getElem?_cons_zero, Option.some.injEq] at h
          subst h
          simp [extract_kwargs]
      | succ k =>
          simp only [List.getElem?_cons_succ] at h
          have harith : i0 + (k + 1) + 1 = (i0 + 1) + k + 1 := by omega
          rw [harith]
          cases t with
          | Term s => exact ih (i0 + 1) k name sym h
          | NamedTerm nm s =>
              exact List.mem_cons_of_mem _ (ih (i0 + 1) k name sym h)
          | OptionalGroup g => exact ih (i0 + 1) k name sym h

theorem coerce_all_append :
    ∀ (xs ys : List RuleInput) (a b : List Rule),
      coerce_all xs = .ok a → coerce_all ys = .ok b →
      coerce_all (xs ++ ys) = .ok (a ++ b) := by
  intro xs
  induction xs with
  | nil =>
      intro ys a b ha hb
      simp only [coerce_all] at ha
      cases ha
      simpa using hb
  | cons i rest ih =>
      intro ys a b ha hb
      rw [List.cons_append]
      rw [coerce_all] at ha ⊢
      cases hc : coerce_to_rule i with
      | error e => simp [hc] at ha
      | ok rs =>
          simp only [hc] at ha
          cases hr : coerce_all rest with
          | error e => simp [hr] at ha
          | ok rest2 =>
              simp only [hr, Except.ok.injEq] at ha
              subst ha
              rw [ih ys rest2 b hr hb]
              simp [List.append_assoc]

theorem splitColon_eq_none : ∀ cs : List Char, (':' ∉ cs) → parser.splitColon cs = none := by
  intro cs
  induction cs with
  | nil => intro h; rfl
  | cons c rest ih =>
      intro h
      simp only [List.mem_cons, not_or] at h
      rw [parser.splitColon, if_neg, ih h.2]
      · rfl
      · intro hc
        exact h.1 hc.symm

theorem parseSeq_consumed : ∀ (fuel : Nat) (toks : List parser.Tok) (terms : List Node)
    (rest : List parser.Tok),
    parser.parseSeq fuel toks = .ok (terms, rest) →
    ∃ consumed, toks = consumed ++ rest
      ∧ (∀ (b : List parser.Tok) (d : Nat),
            parser.parenScan (consumed ++ b) d = parser.parenScan b d)
      ∧ (∀ b : List parser.Tok,
            parser.hasUnterminated (consumed ++ b) = parser.hasUnterminated b) := by
  intro fuel
  induction fuel with
  | zero =>
      intro toks terms rest h
      rw [parser.parseSeq] at h
      exact absurd h (by simp)
  | succ fuel ih =>
      intro toks terms rest h
      rw [parser.parseSeq.eq_def] at h
      split at h
      · exact absurd h (by simp)
      · -- toks = []
        simp only [Except.ok.injEq, Prod.mk.injEq] at h
        obtain ⟨rfl, rfl⟩ := h
        exact ⟨[], rfl, fun _ _ => rfl, fun _ => rfl⟩
      · -- toks = .rparen :: rest0: stop without consuming
        simp only [Except.ok.injEq, Prod.mk.injEq] at h
        obtain ⟨rfl, rfl⟩ := h
        exact ⟨[], rfl, fun _ _ => rfl, fun _ => rfl⟩
      · -- toks = .lparen :: rest0
        rename_i fl rest0 hfe
        have hfl : fl = fuel := by omega
        subst hfl
        split at h
        · exact absurd h (by simp)
        · rename_i xscr inner rest1 hinner
          split at h
          · -- rest1 = .rparen :: .question :: rest2
            rename_i rest2
            split at h
            · exact absurd h (by simp)
            · rename_i xscr2 tail rest3 htail
              simp only [Except.ok.injEq, Prod.mk.injEq] at h
              obtain ⟨rfl, rfl⟩ := h
              obtain ⟨c1, hc1, hp1, hu1⟩ := ih _ _ _ hinner
              obtain ⟨c2, hc2, hp2, hu2⟩ := ih _ _ _ htail
              refine ⟨.lparen :: c1 ++ .rparen :: .question :: c2, ?_, ?_, ?_⟩
              · rw [hc1, hc2]
                simp [List.append_assoc]
              · intro b d
                simp only [List.append_eq, List.cons_append, List.append_assoc, parser.parenScan]
                rw [hp1]
                simp only [List.append_eq, List.cons_append, List.append_assoc, parser.parenScan]
                rw [hp2]
              · intro b
                simp only [List.append_eq, List.cons_append, List.append_assoc, parser.hasUnterminated]
                rw [hu1]
                simp only [List.append_eq, List.cons_append, List.append_assoc, parser.hasUnterminated]
                rw [hu2]
          · exact absurd h (by simp)
          · exact absurd h (by simp)
      · -- toks = .ident n :: .eq :: .ident s :: rest0
        rename_i fl n s rest0 hfe
        have hfl : fl = fuel := by omega
        subst hfl
        split at h
        · exact absurd h (by simp)
        · rename_i xscr tail rest3 htail
          simp only [Except.ok.injEq, Prod.mk.injEq] at h
          obtain ⟨rfl, rfl⟩ := h
          obtain ⟨c, hc, hp, hu⟩ := ih _ _ _ htail
          refine ⟨.ident n :: .eq :: .ident s :: c, ?_, ?_, ?_⟩
          · rw [hc]
            simp
          · intro b d
            simp only [List.append_eq, List.cons_append, List.append_assoc, parser.parenScan]
            rw [hp]
          · intro b
            simp only [List.append_eq, List.cons_append, List.append_assoc, parser.hasUnterminated]
            rw [hu]
      · -- toks = .ident s :: rest0, bare symbol
        rename_i fl s rest0 hshape hfe
        have hfl : fl = fuel := by omega
        subst hfl
        split at h
        · exact absurd h (by simp)
        · rename_i xscr tail rest3 htail
          simp only [Except.ok.injEq, Prod.mk.injEq] at h
          obtain ⟨rfl, rfl⟩ := h
          obtain ⟨c, hc, hp, hu⟩ := ih _ _ _ htail
          refine ⟨.ident s :: c, ?_, ?_, ?_⟩
          · rw [hc]
            simp
          · intro b d
            simp only [List.append_eq, List.cons_append, List.append_assoc, parser.parenScan]
            rw [hp]
          · intro b
            simp only [List.append_eq, List.cons_append, List.append_assoc, parser.hasUnterminated]
            rw [hu]
      · exact absurd h (by simp)
      · exact absurd h (by simp)

theorem parseRule_error_identifies (line : List Char) (e : Err)
    (h : parser.parseRule line = .error e) :
    ∃ m, e = .parseErr m (String.mk line) := by
  rw [parser.parseRule.eq_def] at h
  split at h
  · exact ⟨"missing lhs separator", by simp_all⟩
  · simp only [] at h
    split at h
    · exact ⟨"empty lhs", by simp_all⟩
    · split at h
      · rename_i msg hp
        exact ⟨msg, by simp_all⟩
      · exact absurd h (by simp)
      · exact ⟨"malformed group nesting: unmatched closing paren", by simp_all⟩

theorem mapM_error_of_mem {α β : Type} (f : α → Except Err β) :
    ∀ (l : List α) (x : α) (e : Err), x ∈ l → f x = .error e →
      ∃ (y : α) (ey : Err), y ∈ l ∧ f y = .error ey ∧ l.mapM f = .error ey := by
  intro l
  induction l with
  | nil => intro x e hx _; simp at hx
  | cons a as ih =>
      intro x e hx hfx
      cases hfa : f a with
      | error ea =>
          exact ⟨a, ea, List.mem_cons_self a as, hfa, by rw [List.mapM_cons, hfa]; rfl⟩
      | ok b =>
          rcases List.mem_cons.mp hx with rfl | hx2
          · rw [hfa] at hfx
            exact absurd hfx (by simp)
          · obtain ⟨y, ey, hy, hfy, hm⟩ := ih x e hx2 hfx
            exact ⟨y, ey, List.mem_cons_of_mem a hy, hfy, by rw [List.mapM_cons, hfa, hm]; rfl⟩

/-- Sample rule with one simple optional group, used by witnesses. -/
def sampleOptRule : Rule :=
  ⟨"x", [Node.NamedTerm "a" "A", Node.OptionalGroup (.cons (Node.NamedTerm "b" "B") .nil)]⟩

/-- Sample flat rule, used by witnesses. -/
def sampleFlatRule : Rule :=
  ⟨"x", [Node.NamedTerm "a" "A", Node.Term "B", Node.NamedTerm "c" "C"]⟩

/-- Second sample flat rule, used by witnesses. -/
def sampleFlatRule2 : Rule :=
  ⟨"y", [Node.NamedTerm "b" "B"]⟩

/-- Sample parse stack, used by witnesses. -/
def sampleStack : Nat → Nat :=
  fun j => 10 * j

/-- Sample semantic function, used by witnesses. -/
def sampleFunc : List (String × Nat) → Nat :=
  fun kwargs => kwargs.foldl (fun acc pr => acc + pr.2) 0

/-- C1: for every Rule whose optional groups are all top-level with flat
contents (k independently-reachable groups) and whose flattened+formatted
variants have no duplicate-producing overlap, `expand_optionals` yields
exactly 2 ^ k distinct flattened+formatted results; in particular the input
`x: A (B)? (C)?` yields exactly the four expansions A, A C, A B, A B C. -/
theorem claim_c1 :
    (∀ r : Rule, topLevelSimple r.terms = true →
        ((r.expand_optionals).map (fun v => (v.flatten).format true)).Nodup →
        (process_rule_fmt true r).length = 2 ^ countGroups r.terms)
  ∧ expand_optionals_fmt (.single (.str "x: A (B)? (C)?")) true =
      .ok ["x : A", "x : A C", "x : A B", "x : A B C"] := by
  constructor
  · intro r htop hnd
    unfold process_rule_fmt
    rw [List.dedup_eq_self.mpr hnd, List.length_map]
    unfold Rule.expand_optionals
    rw [List.length_map]
    exact expandSeq_length r.terms htop
  · decide

/-- Witness for C1 at a rule with one top-level optional group. -/
theorem claim_c1_witness :
    topLevelSimple sampleOptRule.terms = true
  ∧ (process_rule_fmt true sampleOptRule).length = 2 ^ countGroups sampleOptRule.terms :=
  ⟨by decide, claim_c1.1 sampleOptRule (by decide) (by decide)⟩

/-- C2 counterexample: over a ruleset of two rules, two syntactically
different optional-group placements that flatten to identical term
sequences appear twice in the expansion output — `expand_optionals`
deduplicates per rule only, so its output is not duplicate-free for every
ruleset. -/
theorem claim_c2_counterexample :
    expand_optionals_fmt (.single (.str "x: (A)? A\nx: A (A)?")) true =
      .ok ["x : A", "x : A A", "x : A", "x : A A"]
  ∧ ¬ (["x : A", "x : A A", "x : A", "x : A A"] : List String).Nodup :=
  ⟨by decide, by decide⟩

/-- C2 amended: within one Rule's expansion the output contains no
duplicates — process_rule takes the set of flattened+formatted strings
(format=True) or the set of flattened Rules (format=False); duplicates can
survive only across distinct Rules of the ruleset. -/
theorem claim_c2 : ∀ (pure_ply : Bool) (r : Rule),
    (process_rule_fmt pure_ply r).Nodup ∧ (process_rule_raw r).Nodup :=
  fun _ _ => ⟨List.nodup_dedup _, List.nodup_dedup _⟩

/-- C3: the nested-optional input `x: A (B (C)?)?` expands to exactly the
three flattened results A, A B and A B C; the combination with C present
but B absent is never generated. -/
theorem claim_c3 :
    expand_optionals_fmt (.single (.str "x: A (B (C)?)?")) true =
      .ok ["x : A", "x : A B", "x : A B C"]
  ∧ ("x : A C" ∉ ["x : A", "x : A B", "x : A B C"]) :=
  ⟨by decide, by decide⟩

/-- C4: a Rule with zero OptionalGroups expands to exactly one element,
which after flattening is structurally equal to the original rule. -/
theorem claim_c4 : ∀ r : Rule, groupFree r.terms = true →
    r.expand_optionals = [r] ∧ process_rule_raw r = [r] := by
  intro r h
  have hexp : r.expand_optionals = [r] := by
    unfold Rule.expand_optionals
    rw [expandSeq_groupFree r.terms h]
    rfl
  refine ⟨hexp, ?_⟩
  unfold process_rule_raw
  rw [hexp]
  have hfl : r.flatten = r := by
    unfold Rule.flatten
    rw [flattenSeq_groupFree r.terms h]
  simp [hfl]

/-- Witness for C4 at a flat rule. -/
theorem claim_c4_witness :
    sampleFlatRule.expand_optionals = [sampleFlatRule]
  ∧ process_rule_raw sampleFlatRule = [sampleFlatRule] :=
  claim_c4 sampleFlatRule (by decide)

/-- C5: flattening an already-flat Rule returns it unchanged, flatten is
idempotent, and flattening never alters any NamedTerm's (name, symbol)
identity — the NamedTerms of the flattened rule are exactly those occurring
anywhere in the original term tree. -/
theorem claim_c5 : ∀ r : Rule,
    (groupFree r.terms = true → r.flatten = r)
  ∧ ((r.flatten).flatten = r.flatten)
  ∧ (∀ name sym : String,
        Node.NamedTerm name sym ∈ (r.flatten).terms ↔
          occursIn (Node.NamedTerm name sym) r.terms = true) := by
  intro r
  refine ⟨?_, ?_, ?_⟩
  · intro h
    unfold Rule.flatten
    rw [flattenSeq_groupFree r.terms h]
  · unfold Rule.flatten
    rw [flattenSeq_groupFree _ (groupFree_flattenSeq r.terms)]
  · intro name sym
    exact mem_flattenSeq_iff_occursIn (Node.NamedTerm name sym) rfl r.terms

/-- Witness for C5 at a flat rule. -/
theorem claim_c5_witness :
    sampleFlatRule.flatten = sampleFlatRule :=
  (claim_c5 sampleFlatRule).1 (by decide)

/-- C6: the wrapper built by create_wrapper reads, for each NamedTerm at
position i of the flattened term sequence, parse-stack slot p[i + 1] and
passes it as the keyword argument named by that term's name; the wrapped
function's result is assigned to slot p[0] and every other slot is left
unchanged. -/
theorem claim_c6 : ∀ {V : Type} (r : Rule) (func : List (String × V) → V) (p : Nat → V),
    create_wrapper (.single (.rule r)) func = .ok ((r.flatten).format true, wrapper r func)
  ∧ wrapper r func p 0 = func (extract_kwargs p (r.flatten).terms 0)
  ∧ (∀ j, j ≠ 0 → wrapper r func p j = p j)
  ∧ (∀ i name sym, (r.flatten).terms[i]? = some (Node.NamedTerm name sym) →
        (name, p (i + 1)) ∈ extract_kwargs p (r.flatten).terms 0) := by
  intro V r func p
  refine ⟨rfl, rfl, ?_, ?_⟩
  · intro j hj
    simp [wrapper, hj]
  · intro i name sym h
    have hm := extract_kwargs_mem p (r.flatten).terms 0 i name sym h
    simpa using hm

/-- Witness for C6 at a flat three-term rule over Nat parse stacks. -/
theorem claim_c6_witness :
    wrapper sampleFlatRule sampleFunc sampleStack 0 = sampleFunc [("a", 10), ("c", 30)]
  ∧ wrapper sampleFlatRule sampleFunc sampleStack 2 = 20
  ∧ ("a", 10) ∈ extract_kwargs sampleStack (sampleFlatRule.flatten).terms 0 := by
  refine ⟨?_, ?_, ?_⟩
  · exact (claim_c6 sampleFlatRule sampleFunc sampleStack).2.1
  · exact ((claim_c6 sampleFlatRule sampleFunc sampleStack).2.2.1 2 (by decide)).trans rfl
  · exact (claim_c6 sampleFlatRule sampleFunc sampleStack).2.2.2 0 "a" "A" (by decide)

/-- C7: whenever ruleset coercion yields a number of Rules different from
one (zero or several, including for the empty input), the single-rule
coercion raises SingleRuleExpectedError carrying the offending input; when
it yields exactly one Rule, that Rule is returned. -/
theorem claim_c7 : ∀ (input : RulesetInput) (rs : List Rule),
    _coerce_to_ruleset input = .ok rs →
    ((rs.length ≠ 1 → _coerce_to_single_rule input = .error (.singleRuleExpected input))
  ∧ (∀ r, rs = [r] → _coerce_to_single_rule input = .ok r)) := by
  intro input rs h
  constructor
  · intro hlen
    unfold _coerce_to_single_rule
    rw [h]
    rcases rs with _ | ⟨r1, _ | ⟨r2, rest⟩⟩
    · rfl
    · simp at hlen
    · rfl
  · intro r hr
    subst hr
    unfold _coerce_to_single_rule
    rw [h]

/-- Witness for C7 at the empty input, which coerces to zero rules. -/
theorem claim_c7_witness :
    _coerce_to_single_rule (.single (.str "")) =
      .error (.singleRuleExpected (.single (.str ""))) :=
  (claim_c7 (.single (.str "")) [] (by decide)).1 (by decide)

/-- C8: malformed input fails parsing with an error identifying the
offending input, universally over each failure mode — every line without
the lhs separator is a parse error; every line whose right-hand side has
unbalanced group nesting (in particular an unmatched opening paren) is a
parse error; every line whose right-hand side has an unterminated optional
marker (a closing paren not followed by the question mark) is a parse
error; and whenever any line of a multi-line input fails, the whole parse
call fails with a parse error identifying an offending line — no partial
results are returned. -/
theorem claim_c8 :
    (∀ line : List Char, (':' ∉ line) →
        parser.parseRule line = .error (.parseErr "missing lhs separator" (String.mk line)))
  ∧ (∀ (line lhsPart rhsPart : List Char),
        parser.splitColon line = some (lhsPart, rhsPart) →
        parser.balanced (parser.tokenize rhsPart) = false →
        ∃ m, parser.parseRule line = .error (.parseErr m (String.mk line)))
  ∧ (∀ (line lhsPart rhsPart : List Char),
        parser.splitColon line = some (lhsPart, rhsPart) →
        parser.hasUnterminated (parser.tokenize rhsPart) = true →
        ∃ m, parser.parseRule line = .error (.parseErr m (String.mk line)))
  ∧ (∀ (text : String) (line : List Char) (e : Err),
        line ∈ ((parser.splitNl text.toList).map parser.trimChars).filter (fun l => l ≠ []) →
        parser.parseRule line = .error e →
        ∃ (m : String) (badLine : List Char),
          badLine ∈ ((parser.splitNl text.toList).map parser.trimChars).filter (fun l => l ≠ [])
          ∧ parser.parse text = .error (.parseErr m (String.mk badLine))) := by
  refine ⟨?_, ?_, ?_, ?_⟩
  · intro line h
    unfold parser.parseRule
    rw [splitColon_eq_none line h]
  · intro line lhsPart rhsPart hsplit hbal
    rw [parser.parseRule.eq_def, hsplit]
    simp only []
    split
    · exact ⟨"empty lhs", rfl⟩
    · split
      · rename_i msg hp
        exact ⟨msg, rfl⟩
      · rename_i pr hp
        exfalso
        obtain ⟨c, hc, hpsc, _⟩ := parseSeq_consumed _ _ _ _ hp
        rw [List.append_nil] at hc
        subst hc
        have h0 := hpsc [] 0
        rw [List.append_nil] at h0
        simp [parser.balanced, h0, parser.parenScan] at hbal
      · exact ⟨"malformed group nesting: unmatched closing paren", rfl⟩
  · intro line lhsPart rhsPart hsplit hunt
    rw [parser.parseRule.eq_def, hsplit]
    simp only []
    split
    · exact ⟨"empty lhs", rfl⟩
    · split
      · rename_i msg hp
        exact ⟨msg, rfl⟩
      · rename_i pr hp
        exfalso
        obtain ⟨c, hc, _, hunc⟩ := parseSeq_consumed _ _ _ _ hp
        rw [List.append_nil] at hc
        subst hc
        have h0 := hunc []
        rw [List.append_nil] at h0
        rw [h0] at hunt
        simp [parser.hasUnterminated] at hunt
      · exact ⟨"malformed group nesting: unmatched closing paren", rfl⟩
  · intro text line e hline herr
    obtain ⟨y, ey, hy, hfy, hm⟩ := mapM_error_of_mem parser.parseRule _ line e hline herr
    obtain ⟨m, rfl⟩ := parseRule_error_identifies y ey hfy
    exact ⟨m, y, hy, hm⟩

/-- Witness for C8: a line with no separator, an unmatched opening paren,
an unterminated optional marker, and a multi-line input failing as a whole. -/
theorem claim_c8_witness :
    parser.parseRule ['x'] = .error (.parseErr "missing lhs separator" (String.mk ['x']))
  ∧ (∃ m, parser.parseRule "x: A (B".toList = .error (.parseErr m (String.mk "x: A (B".toList)))
  ∧ (∃ m, parser.parseRule "x: A (B)".toList = .error (.parseErr m (String.mk "x: A (B)".toList)))
  ∧ (∃ (m : String) (badLine : List Char),
        badLine ∈ ((parser.splitNl ("x: A\ny: (B" : String).toList).map parser.trimChars).filter
          (fun l => l ≠ [])
        ∧ parser.parse "x: A\ny: (B" = .error (.parseErr m (String.mk badLine))) := by
  refine ⟨claim_c8.1 ['x'] (by decide), ?_, ?_, ?_⟩
  · exact claim_c8.2.1 "x: A (B".toList "x".toList " A (B".toList (by decide) (by decide)
  · exact claim_c8.2.2.1 "x: A (B)".toList "x".toList " A (B)".toList (by decide) (by decide)
  · exact claim_c8.2.2.2 "x: A\ny: (B" "y: (B".toList
      (.parseErr "malformed group nesting: unmatched opening paren" "y: (B")
      (by decide) (by decide)

/-- C9: a falsy definition string (missing or empty) raises NoDocstringError
before any parsing, with a message naming the function when fname is given;
a non-empty definition is stripped of surrounding whitespace and handed to
the rule parser. -/
theorem claim_c9 :
    (∀ fname, parse none fname = .error (.noDocstring (noDocstringMsg fname))
       ∧ parse (some "") fname = .error (.noDocstring (noDocstringMsg fname)))
  ∧ (∀ f, noDocstringMsg (some f) = "Function " ++ f ++ " has no docstring")
  ∧ (noDocstringMsg none = "Provided function has no docstring")
  ∧ (∀ d fname, d ≠ "" → parse (some d) fname = parser.parse (strip d)) := by
  refine ⟨fun fname => ⟨rfl, rfl⟩, fun f => rfl, rfl, ?_⟩
  intro d fname hd
  simp [parse, hd]

/-- Witness for C9 at a non-empty definition string. -/
theorem claim_c9_witness :
    parse (some "  x: A ") none = parser.parse (strip "  x: A ") :=
  claim_c9.2.2.2 "  x: A " none (by decide)

/-- C10: ruleset coercion wraps a non-list input as a singleton, passes
Rule elements through unchanged, replaces each string element by the Rules
the parser produces for it, and concatenates the per-element results in
order. -/
theorem claim_c10 :
    (∀ i : RuleInput, _coerce_to_ruleset (.single i) = _coerce_to_ruleset (.many [i]))
  ∧ (∀ r : Rule, _coerce_to_ruleset (.many [.rule r]) = .ok [r])
  ∧ (∀ s : String, _coerce_to_ruleset (.many [.str s]) = parser.parse s)
  ∧ (∀ (xs ys : List RuleInput) (a b : List Rule),
        coerce_all xs = .ok a → coerce_all ys = .ok b →
        coerce_all (xs ++ ys) = .ok (a ++ b)) := by
  refine ⟨fun i => rfl, fun r => rfl, ?_, coerce_all_append⟩
  intro s
  show coerce_all [.str s] = parser.parse s
  cases hp : parser.parse s with
  | error e => simp [coerce_all, coerce_to_rule, hp]
  | ok rs => simp [coerce_all, coerce_to_rule, hp]

/-- Witness for C10: coercion of the concatenation of two singleton rule
lists is the concatenation of their coercions. -/
theorem claim_c10_witness :
    coerce_all ([.rule sampleFlatRule] ++ [.rule sampleFlatRule2]) =
      .ok ([sampleFlatRule] ++ [sampleFlatRule2]) :=
  claim_c10.2.2.2 [.rule sampleFlatRule] [.rule sampleFlatRule2]
    [sampleFlatRule] [sampleFlatRule2] (by decide) (by decide)

end easyply
